import Mathlib

/-!
Verification of the Treap / OrderedSet data structures of pycpbook
(`content/data_structures/treap.py` and `content/data_structures/ordered_set.py`).

The Python code mutates child pointers in place; each operation rebuilds the
nodes it touches and leaves every other node untouched, so it is embedded here
as a pure function on an inductive tree.  Random priorities are drawn once per
`insert` call; the embedding takes the drawn priority as an explicit argument.
Both implementations compare keys with `<`/`==` and priorities with `>` only,
so keys and priorities are parametrised over arbitrary linear orders.  The
`delete` method computes `key + 1`, so its key type additionally needs `Add`
and `One`.
-/

set_option maxHeartbeats 1000000
set_option linter.unusedSectionVars false

namespace PyCPBook

/-- Nodes of `ordered_set.py`: key, priority, cached subtree size, children.
`None` children are the `nil` tree. -/
inductive OTree (K P : Type) where
  | nil : OTree K P
  | node (key : K) (priority : P) (size : Nat) (left right : OTree K P) : OTree K P
deriving Repr, DecidableEq

/-- Nodes of `treap.py`: as `OTree` but without the `size` field. -/
inductive TTree (K P : Type) where
  | nil : TTree K P
  | node (key : K) (priority : P) (left right : TTree K P) : TTree K P
deriving Repr, DecidableEq

namespace OTree

variable {K P : Type}

/-- `_get_size(t)`: the stored size field, `0` for an absent tree. -/
def get_size : OTree K P → Nat
  | nil => 0
  | node _ _ s _ _ => s

/-- In-order traversal of the keys (specification-level; used to state what
"the keys of the tree" means). -/
def toList : OTree K P → List K
  | nil => []
  | node k _ _ l r => toList l ++ k :: toList r

/-- All priorities stored in the tree (specification-level). -/
def prios : OTree K P → List P
  | nil => []
  | node _ p _ l r => p :: (prios l ++ prios r)

variable [LinearOrder K] [LinearOrder P]

/-- BST invariant (spec §3, invariant 1): at every node, all keys of the left
subtree are below the node's key and all keys of the right subtree above it. -/
def bstB : OTree K P → Bool
  | nil => true
  | node k _ _ l r =>
      (toList l).all (fun x => x < k) && (toList r).all (fun x => k < x)
        && bstB l && bstB r

/-- Priority of the root of `t` is at most `p` (vacuously true for `nil`). -/
def rootPrioLe (p : P) : OTree K P → Bool
  | nil => true
  | node _ q _ _ _ => q ≤ p

/-- Heap invariant (spec §3, invariant 2): every node's priority is `≥` the
priorities of its children's roots (max-heap). -/
def heapB : OTree K P → Bool
  | nil => true
  | node _ p _ l r => rootPrioLe p l && rootPrioLe p r && heapB l && heapB r

/-- Size invariant (spec §3, invariant 3): every stored `size` field equals
`1 + size(left) + size(right)`. -/
def sizeOK : OTree K P → Bool
  | nil => true
  | node _ _ s l r => s == 1 + get_size l + get_size r && sizeOK l && sizeOK r

/-- `_split(t, key)` of `ordered_set.py`: keys `< key` to the left result,
keys `>= key` to the right result, recomputing the size of each rebuilt
node exactly as `_update_size` does. -/
def osplit : OTree K P → K → OTree K P × OTree K P
  | nil, _ => (nil, nil)
  | node k p _ tl tr, key =>
      if k < key then
        let s := osplit tr key
        (node k p (1 + get_size tl + get_size s.1) tl s.1, s.2)
      else
        let s := osplit tl key
        (s.1, node k p (1 + get_size s.2 + get_size tr) s.2 tr)

/-- `_merge(t1, t2)` of `ordered_set.py`: roots chosen by priority
(`t1.priority > t2.priority` keeps `t1`'s root), sizes recomputed on the way
back up. -/
def omerge : OTree K P → OTree K P → OTree K P
  | nil, t2 => t2
  | node k1 p1 s1 l1 r1, nil => node k1 p1 s1 l1 r1
  | node k1 p1 s1 l1 r1, node k2 p2 s2 l2 r2 =>
      if p1 > p2 then
        let m := omerge r1 (node k2 p2 s2 l2 r2)
        node k1 p1 (1 + get_size l1 + get_size m) l1 m
      else
        let m := omerge (node k1 p1 s1 l1 r1) l2
        node k2 p2 (1 + get_size m + get_size r2) m r2
  termination_by t1 t2 => sizeOf t1 + sizeOf t2
  decreasing_by all_goals (simp_wf; try omega)

/-- `OrderedSet.search(key)`: iterative BST descent, `True` iff found. -/
def osearch : OTree K P → K → Bool
  | nil, _ => false
  | node k _ _ l r, key =>
      if k = key then true
      else if key < k then osearch l key else osearch r key

/-- `OrderedSet.insert(key)`: no-op if present, else split at the key and
merge in a fresh singleton node carrying the drawn priority `p`. -/
def oinsert (t : OTree K P) (key : K) (p : P) : OTree K P :=
  if osearch t key then t
  else
    let s := osplit t key
    omerge (omerge s.1 (node key p 1 nil nil)) s.2

/-- `OrderedSet.delete(key)`: no-op if absent, else split at `key` and at
`key + 1` and drop the middle part. -/
def odelete [Add K] [One K] (t : OTree K P) (key : K) : OTree K P :=
  if !osearch t key then t
  else
    let s := osplit t key
    let s2 := osplit s.2 (key + 1)
    omerge s.1 s2.2

/-- `OrderedSet.find_by_order(k)`: size-guided descent; `k` is a Python
integer, so it may be negative. Returns `none` when the loop runs off the
tree (Python returns `None`). -/
def find_by_order : OTree K P → Int → Option K
  | nil, _ => none
  | node k _ _ l r, i =>
      let ls : Int := get_size l
      if ls = i then some k
      else if i < ls then find_by_order l i
      else find_by_order r (i - ls - 1)

/-- `OrderedSet.order_of_key(key)`: number of keys strictly below `key`,
accumulated from the left-subtree sizes along the search path. -/
def order_of_key : OTree K P → K → Nat
  | nil, _ => 0
  | node k _ _ l r, key =>
      if key = k then get_size l
      else if key < k then order_of_key l key
      else get_size l + 1 + order_of_key r key

/-- Every priority stored in `t` is at most `p` (specification-level bound,
used to relate the local heap condition to all descendants). -/
def prioAll (p : P) (t : OTree K P) : Bool :=
  (prios t).all (fun q => q ≤ p)

end OTree

namespace TTree

variable {K P : Type}

/-- In-order traversal of the keys of a plain treap. -/
def toList : TTree K P → List K
  | nil => []
  | node k _ l r => toList l ++ k :: toList r

variable [LinearOrder K] [LinearOrder P]

/-- `_split(t, key)` of `treap.py` (no size bookkeeping). -/
def tsplit : TTree K P → K → TTree K P × TTree K P
  | nil, _ => (nil, nil)
  | node k p tl tr, key =>
      if k < key then
        let s := tsplit tr key
        (node k p tl s.1, s.2)
      else
        let s := tsplit tl key
        (s.1, node k p s.2 tr)

/-- `_merge(t1, t2)` of `treap.py` (no size bookkeeping). -/
def tmerge : TTree K P → TTree K P → TTree K P
  | nil, t2 => t2
  | node k1 p1 l1 r1, nil => node k1 p1 l1 r1
  | node k1 p1 l1 r1, node k2 p2 l2 r2 =>
      if p1 > p2 then node k1 p1 l1 (tmerge r1 (node k2 p2 l2 r2))
      else node k2 p2 (tmerge (node k1 p1 l1 r1) l2) r2
  termination_by t1 t2 => sizeOf t1 + sizeOf t2
  decreasing_by all_goals (simp_wf; try omega)

/-- `Treap.search(key)`. -/
def tsearch : TTree K P → K → Bool
  | nil, _ => false
  | node k _ l r, key =>
      if k = key then true
      else if key < k then tsearch l key else tsearch r key

/-- `Treap.insert(key)`: note the association `merge(l, merge(new_node, r))`,
the mirror image of the `OrderedSet` version. -/
def tinsert (t : TTree K P) (key : K) (p : P) : TTree K P :=
  if tsearch t key then t
  else
    let s := tsplit t key
    tmerge s.1 (tmerge (node key p nil nil) s.2)

/-- `Treap.delete(key)`. -/
def tdelete [Add K] [One K] (t : TTree K P) (key : K) : TTree K P :=
  if !tsearch t key then t
  else
    let s := tsplit t key
    let s2 := tsplit s.2 (key + 1)
    tmerge s.1 s2.2

/-- Number of nodes of a plain treap (measure for the merge proofs). -/
def tcount : TTree K P → Nat
  | nil => 0
  | node _ _ l r => 1 + tcount l + tcount r

end TTree

/-- Forget the `size` augmentation: the shape, keys and priorities that the
plain `treap.py` node also has. -/
def eraseSize {K P : Type} : OTree K P → TTree K P
  | .nil => .nil
  | .node k p _ l r => .node k p (eraseSize l) (eraseSize r)

/-- One mutating call of the API shared by `Treap` and `OrderedSet`:
an `insert` together with the priority drawn for it, or a `delete`. -/
inductive MOp (K P : Type) where
  | ins (key : K) (prio : P)
  | del (key : K)

/-- Interpretation of one shared call on the `OrderedSet` tree. -/
def oApply {K P : Type} [LinearOrder K] [LinearOrder P] [Add K] [One K]
    (t : OTree K P) : MOp K P → OTree K P
  | .ins k p => t.oinsert k p
  | .del k => t.odelete k

/-- Interpretation of one shared call on the plain `Treap` tree. -/
def tApply {K P : Type} [LinearOrder K] [LinearOrder P] [Add K] [One K]
    (t : TTree K P) : MOp K P → TTree K P
  | .ins k p => t.tinsert k p
  | .del k => t.tdelete k

/-- Run a call sequence on an initially empty `OrderedSet`. -/
def runO {K P : Type} [LinearOrder K] [LinearOrder P] [Add K] [One K]
    (ops : List (MOp K P)) : OTree K P :=
  ops.foldl oApply OTree.nil

/-- Run a call sequence on an initially empty `Treap`. -/
def runT {K P : Type} [LinearOrder K] [LinearOrder P] [Add K] [One K]
    (ops : List (MOp K P)) : TTree K P :=
  ops.foldl tApply TTree.nil

/-- One public `OrderedSet` call: the two mutators plus the three read-only
queries (`search`, `find_by_order`, `order_of_key`). -/
inductive SetOp (K P : Type) where
  | ins (key : K) (prio : P)
  | del (key : K)
  | mem (key : K)
  | kth (k : Int)
  | rank (key : K)

/-- Interpretation of one public `OrderedSet` call on the tree.  The three
query methods of `ordered_set.py` only read `node.left`/`node.right`/`size`
and never assign, so they leave the tree exactly as it was. -/
def setApply {K P : Type} [LinearOrder K] [LinearOrder P] [Add K] [One K]
    (t : OTree K P) : SetOp K P → OTree K P
  | .ins k p => t.oinsert k p
  | .del k => t.odelete k
  | .mem _ => t
  | .kth _ => t
  | .rank _ => t

/-- Run a public call sequence on an initially empty `OrderedSet`. -/
def runSet {K P : Type} [LinearOrder K] [LinearOrder P] [Add K] [One K]
    (ops : List (SetOp K P)) : OTree K P :=
  ops.foldl setApply OTree.nil

/-- A well-formed two-node `OrderedSet` tree over rational keys, holding the
keys `5` and `11/2`.  Used to exhibit the behaviour of `delete` on a key type
where `key + 1` is not the successor boundary. -/
def ratTree : OTree ℚ ℤ :=
  .node 5 1 2 .nil (.node (11/2) 0 1 .nil .nil)

/-- A well-formed `OrderedSet` tree over the seven keys of spec §8
(`[1, 3, 4, 5, 7, 8, 9]`), with integer priorities. -/
def sampleT : OTree ℤ ℤ :=
  .node 5 70 7
    (.node 3 50 3 (.node 1 10 1 .nil .nil) (.node 4 30 1 .nil .nil))
    (.node 8 60 3 (.node 7 40 1 .nil .nil) (.node 9 20 1 .nil .nil))

/-!  Basic lemmas about the `OrderedSet` primitives. -/

namespace OTree

variable {K P : Type} [LinearOrder K] [LinearOrder P]

theorem omerge_nil (t : OTree K P) : omerge t nil = t := by
  cases t <;> simp [omerge]

theorem toList_omerge (a b : OTree K P) :
    (omerge a b).toList = a.toList ++ b.toList := by
  induction a, b using omerge.induct with
  | case1 t2 => simp [omerge, toList]
  | case2 k1 p1 s1 l1 r1 => simp [omerge, toList]
  | case3 k1 p1 s1 l1 r1 k2 p2 s2 l2 r2 h ih => simp [omerge, h, toList, ih]
  | case4 k1 p1 s1 l1 r1 k2 p2 s2 l2 r2 h ih => simp [omerge, h, toList, ih]

theorem get_size_eq_length {t : OTree K P} (h : sizeOK t = true) :
    get_size t = t.toList.length := by
  induction t with
  | nil => simp [get_size, toList]
  | node k p s l r ihl ihr =>
    simp only [sizeOK, Bool.and_eq_true, beq_iff_eq] at h
    simp only [get_size, toList, List.length_append, List.length_cons]
    rw [h.1.1, ihl h.1.2, ihr h.2]
    omega

theorem sizeOK_osplit {t : OTree K P} (key : K) (h : sizeOK t = true) :
    sizeOK (osplit t key).1 = true ∧ sizeOK (osplit t key).2 = true := by
  induction t with
  | nil => simp [osplit, sizeOK]
  | node k p s l r ihl ihr =>
    simp only [sizeOK, Bool.and_eq_true, beq_iff_eq] at h
    by_cases hk : k < key
    · have hr := ihr h.2
      simp [osplit, hk, sizeOK, h.1.2, hr.1, hr.2]
    · have hl := ihl h.1.2
      simp [osplit, hk, sizeOK, h.2, hl.1, hl.2]

theorem sizeOK_omerge (a b : OTree K P) :
    sizeOK a = true → sizeOK b = true → sizeOK (omerge a b) = true := by
  induction a, b using omerge.induct with
  | case1 t2 => intro _ hb; simpa [omerge] using hb
  | case2 k1 p1 s1 l1 r1 => intro ha _; simpa [omerge] using ha
  | case3 k1 p1 s1 l1 r1 k2 p2 s2 l2 r2 h ih =>
    intro ha hb
    simp only [sizeOK, Bool.and_eq_true, beq_iff_eq] at ha
    simp [omerge, h, sizeOK, ha.1.2, ih (by simp [ha.2]) hb]
  | case4 k1 p1 s1 l1 r1 k2 p2 s2 l2 r2 h ih =>
    intro ha hb
    simp only [sizeOK, Bool.and_eq_true, beq_iff_eq] at hb
    simp [omerge, h, sizeOK, hb.2, ih ha (by simp [hb.1.2])]

theorem prioAll_node_iff {p q : P} {k : K} {s : Nat} {l r : OTree K P} :
    prioAll p (node k q s l r) = true ↔
      q ≤ p ∧ prioAll p l = true ∧ prioAll p r = true := by
  simp [prioAll, prios, List.all_append, and_assoc]

theorem prioAll_mono {p q : P} (hpq : p ≤ q) {t : OTree K P}
    (h : prioAll p t = true) : prioAll q t = true := by
  simp only [prioAll, List.all_eq_true, decide_eq_true_eq] at h ⊢
  exact fun x hx => le_trans (h x hx) hpq

theorem rootPrioLe_mono {p q : P} (hpq : p ≤ q) {t : OTree K P}
    (h : rootPrioLe p t = true) : rootPrioLe q t = true := by
  cases t with
  | nil => simp [rootPrioLe]
  | node k x s l r =>
    simp only [rootPrioLe, decide_eq_true_eq] at h ⊢
    exact le_trans h hpq

theorem rootPrioLe_of_prioAll {p : P} {t : OTree K P} (h : prioAll p t = true) :
    rootPrioLe p t = true := by
  cases t with
  | nil => simp [rootPrioLe]
  | node k q s l r => simp [rootPrioLe, (prioAll_node_iff.1 h).1]

theorem prioAll_of_heapB {t : OTree K P} (h : heapB t = true) :
    ∀ {p : P}, rootPrioLe p t = true → prioAll p t = true := by
  induction t with
  | nil => intro p _; simp [prioAll, prios]
  | node k q s l r ihl ihr =>
    intro p hr
    simp only [heapB, Bool.and_eq_true] at h
    simp only [rootPrioLe, decide_eq_true_eq] at hr
    exact prioAll_node_iff.2 ⟨hr,
      ihl h.1.2 (rootPrioLe_mono hr h.1.1.1),
      ihr h.2 (rootPrioLe_mono hr h.1.1.2)⟩

theorem heapB_node_iff {q : P} {k : K} {s : Nat} {l r : OTree K P} :
    heapB (node k q s l r) = true ↔
      prioAll q l = true ∧ prioAll q r = true ∧
        heapB l = true ∧ heapB r = true := by
  constructor
  · intro h
    have h' := h
    simp only [heapB, Bool.and_eq_true] at h'
    exact ⟨prioAll_of_heapB h'.1.2 h'.1.1.1, prioAll_of_heapB h'.2 h'.1.1.2,
      h'.1.2, h'.2⟩
  · rintro ⟨h1, h2, h3, h4⟩
    simp [heapB, rootPrioLe_of_prioAll h1, rootPrioLe_of_prioAll h2, h3, h4]

theorem prioAll_osplit {t : OTree K P} (key : K) {p : P}
    (h : prioAll p t = true) :
    prioAll p (osplit t key).1 = true ∧ prioAll p (osplit t key).2 = true := by
  induction t with
  | nil => simp [osplit, prioAll, prios]
  | node k q s l r ihl ihr =>
    obtain ⟨hq, hl, hr⟩ := prioAll_node_iff.1 h
    by_cases hk : k < key
    · exact ⟨by simp [osplit, hk]; exact prioAll_node_iff.2 ⟨hq, hl, (ihr hr).1⟩,
        by simpa [osplit, hk] using (ihr hr).2⟩
    · exact ⟨by simpa [osplit, hk] using (ihl hl).1,
        by simp [osplit, hk]; exact prioAll_node_iff.2 ⟨hq, (ihl hl).2, hr⟩⟩

theorem heapB_osplit {t : OTree K P} (key : K) (h : heapB t = true) :
    heapB (osplit t key).1 = true ∧ heapB (osplit t key).2 = true := by
  induction t with
  | nil => simp [osplit, heapB]
  | node k q s l r ihl ihr =>
    obtain ⟨hal, har, hhl, hhr⟩ := heapB_node_iff.1 h
    by_cases hk : k < key
    · constructor
      · simp only [osplit, hk, if_true]
        exact heapB_node_iff.2 ⟨hal, (prioAll_osplit key har).1, hhl, (ihr hhr).1⟩
      · simpa [osplit, hk] using (ihr hhr).2
    · constructor
      · simpa [osplit, hk] using (ihl hhl).1
      · simp only [osplit, hk, if_false]
        exact heapB_node_iff.2 ⟨(prioAll_osplit key hal).2, har, (ihl hhl).2, hhr⟩

theorem prioAll_omerge (a b : OTree K P) {p : P} :
    prioAll p a = true → prioAll p b = true →
      prioAll p (omerge a b) = true := by
  induction a, b using omerge.induct with
  | case1 t2 => intro _ hb; simpa [omerge] using hb
  | case2 k1 p1 s1 l1 r1 => intro ha _; simpa [omerge] using ha
  | case3 k1 p1 s1 l1 r1 k2 p2 s2 l2 r2 h ih =>
    intro ha hb
    obtain ⟨h1, hl1, hr1⟩ := prioAll_node_iff.1 ha
    simp only [omerge, h, if_true]
    exact prioAll_node_iff.2 ⟨h1, hl1, ih hr1 hb⟩
  | case4 k1 p1 s1 l1 r1 k2 p2 s2 l2 r2 h ih =>
    intro ha hb
    obtain ⟨h2, hl2, hr2⟩ := prioAll_node_iff.1 hb
    simp only [omerge, h, if_false]
    exact prioAll_node_iff.2 ⟨h2, ih ha hl2, hr2⟩

theorem heapB_omerge (a b : OTree K P) :
    heapB a = true → heapB b = true → heapB (omerge a b) = true := by
  induction a, b using omerge.induct with
  | case1 t2 => intro _ hb; simpa [omerge] using hb
  | case2 k1 p1 s1 l1 r1 => intro ha _; simpa [omerge] using ha
  | case3 k1 p1 s1 l1 r1 k2 p2 s2 l2 r2 h ih =>
    intro ha hb
    obtain ⟨hal, har, hhl, hhr⟩ := heapB_node_iff.1 ha
    have hb1 : prioAll p1 (node k2 p2 s2 l2 r2) = true :=
      prioAll_mono (le_of_lt h) (prioAll_of_heapB hb (by simp [rootPrioLe]))
    simp only [omerge, h, if_true]
    exact heapB_node_iff.2 ⟨hal, prioAll_omerge _ _ har hb1, hhl, ih hhr hb⟩
  | case4 k1 p1 s1 l1 r1 k2 p2 s2 l2 r2 h ih =>
    intro ha hb
    obtain ⟨hal, har, hhl, hhr⟩ := heapB_node_iff.1 hb
    have ha1 : prioAll p2 (node k1 p1 s1 l1 r1) = true :=
      prioAll_mono (le_of_not_lt h) (prioAll_of_heapB ha (by simp [rootPrioLe]))
    simp only [omerge, h, if_false]
    exact heapB_node_iff.2 ⟨prioAll_omerge _ _ ha1 hal, har, ih ha hhl, hhr⟩

theorem bstB_node_iff {k : K} {p : P} {s : Nat} {l r : OTree K P} :
    bstB (node k p s l r) = true ↔
      (∀ x ∈ l.toList, x < k) ∧ (∀ x ∈ r.toList, k < x) ∧
        bstB l = true ∧ bstB r = true := by
  simp [bstB, List.all_eq_true, and_assoc]

theorem mem_toList_node {x k : K} {p : P} {s : Nat} {l r : OTree K P} :
    x ∈ (node k p s l r).toList ↔ x ∈ l.toList ∨ x = k ∨ x ∈ r.toList := by
  simp [toList]

theorem toList_osplit {t : OTree K P} (key : K) (h : bstB t = true) :
    (osplit t key).1.toList = t.toList.filter (fun x => decide (x < key)) ∧
      (osplit t key).2.toList = t.toList.filter (fun x => decide (key ≤ x)) := by
  induction t with
  | nil => simp [osplit, toList]
  | node k p s l r ihl ihr =>
    obtain ⟨hl, hr, hbl, hbr⟩ := bstB_node_iff.1 h
    by_cases hk : k < key
    · have ir := ihr hbr
      have hfl : l.toList.filter (fun x => decide (x < key)) = l.toList :=
        List.filter_eq_self.2 fun x hx => by
          simpa using lt_trans (hl x hx) hk
      have hfl2 : l.toList.filter (fun x => decide (key ≤ x)) = [] :=
        List.filter_eq_nil_iff.2 fun x hx => by
          simpa using lt_trans (hl x hx) hk
      constructor
      · simp only [osplit, hk, if_true, toList, List.filter_append,
          List.filter_cons, decide_eq_true_eq, hk, if_pos, hfl, ir.1]
      · simp only [osplit, hk, if_true, toList, List.filter_append,
          List.filter_cons, decide_eq_true_eq, not_le.2 hk, if_neg, hfl2, ir.2,
          List.nil_append]
        simp
    · have il := ihl hbl
      have hkk : key ≤ k := le_of_not_lt hk
      have hfr : r.toList.filter (fun x => decide (key ≤ x)) = r.toList :=
        List.filter_eq_self.2 fun x hx => by
          simpa using le_trans hkk (le_of_lt (hr x hx))
      have hfr2 : r.toList.filter (fun x => decide (x < key)) = [] :=
        List.filter_eq_nil_iff.2 fun x hx => by
          simpa using le_trans hkk (le_of_lt (hr x hx))
      constructor
      · simp only [osplit, hk, if_false, toList, List.filter_append,
          List.filter_cons, decide_eq_true_eq, hk, if_neg, hfr2, il.1,
          List.append_nil]
      · simp only [osplit, hk, if_false, toList, List.filter_append,
          List.filter_cons, decide_eq_true_eq, hkk, if_pos, hfr, il.2]

theorem bstB_osplit {t : OTree K P} (key : K) (h : bstB t = true) :
    bstB (osplit t key).1 = true ∧ bstB (osplit t key).2 = true := by
  induction t with
  | nil => simp [osplit, bstB]
  | node k p s l r ihl ihr =>
    obtain ⟨hl, hr, hbl, hbr⟩ := bstB_node_iff.1 h
    by_cases hk : k < key
    · constructor
      · simp only [osplit, hk, if_true]
        refine bstB_node_iff.2 ⟨hl, ?_, hbl, (ihr hbr).1⟩
        intro x hx
        rw [(toList_osplit key hbr).1] at hx
        exact hr x (List.mem_of_mem_filter hx)
      · simpa [osplit, hk] using (ihr hbr).2
    · constructor
      · simpa [osplit, hk] using (ihl hbl).1
      · simp only [osplit, hk, if_false]
        refine bstB_node_iff.2 ⟨?_, hr, (ihl hbl).2, hbr⟩
        intro x hx
        rw [(toList_osplit key hbl).2] at hx
        exact hl x (List.mem_of_mem_filter hx)

theorem bstB_omerge (a b : OTree K P) :
    bstB a = true → bstB b = true →
      (∀ x ∈ a.toList, ∀ y ∈ b.toList, x < y) → bstB (omerge a b) = true := by
  induction a, b using omerge.induct with
  | case1 t2 => intro _ hb _; simpa [omerge] using hb
  | case2 k1 p1 s1 l1 r1 => intro ha _ _; simpa [omerge] using ha
  | case3 k1 p1 s1 l1 r1 k2 p2 s2 l2 r2 h ih =>
    intro ha hb hsep
    obtain ⟨hl, hr, hbl, hbr⟩ := bstB_node_iff.1 ha
    simp only [omerge, h, if_true]
    refine bstB_node_iff.2 ⟨hl, ?_, hbl,
      ih hbr hb fun x hx y hy =>
        hsep x (mem_toList_node.2 (Or.inr (Or.inr hx))) y hy⟩
    intro x hx
    rw [toList_omerge] at hx
    rcases List.mem_append.1 hx with hx | hx
    · exact hr x hx
    · exact hsep k1 (mem_toList_node.2 (Or.inr (Or.inl rfl))) x hx
  | case4 k1 p1 s1 l1 r1 k2 p2 s2 l2 r2 h ih =>
    intro ha hb hsep
    obtain ⟨hl, hr, hbl, hbr⟩ := bstB_node_iff.1 hb
    simp only [omerge, h, if_false]
    refine bstB_node_iff.2 ⟨?_, hr, ih ha hbl fun x hx y hy =>
      hsep x hx y (mem_toList_node.2 (Or.inl hy)), hbr⟩
    intro x hx
    rw [toList_omerge] at hx
    rcases List.mem_append.1 hx with hx | hx
    · exact hsep x hx k2 (mem_toList_node.2 (Or.inr (Or.inl rfl)))
    · exact hl x hx

theorem osearch_iff_mem {t : OTree K P} (h : bstB t = true) (key : K) :
    osearch t key = true ↔ key ∈ t.toList := by
  induction t with
  | nil => simp [osearch, toList]
  | node k p s l r ihl ihr =>
    obtain ⟨hl, hr, hbl, hbr⟩ := bstB_node_iff.1 h
    by_cases hk : k = key
    · simp [osearch, hk, mem_toList_node]
    · by_cases hkey : key < k
      · rw [show osearch (node k p s l r) key = osearch l key by
          simp [osearch, hk, hkey], ihl hbl, mem_toList_node]
        constructor
        · exact Or.inl
        · rintro (hm | hm | hm)
          · exact hm
          · exact absurd (hm ▸ hkey) (lt_irrefl k)
          · exact absurd (lt_trans hkey (hr key hm)) (lt_irrefl key)
      · have hkk : k < key := lt_of_le_of_ne (le_of_not_lt hkey) hk
        rw [show osearch (node k p s l r) key = osearch r key by
          simp [osearch, hk, hkey], ihr hbr, mem_toList_node]
        constructor
        · exact fun hm => Or.inr (Or.inr hm)
        · rintro (hm | hm | hm)
          · exact absurd (lt_trans hkk (hl key hm)) (lt_irrefl k)
          · exact absurd (hm ▸ hkk) (lt_irrefl k)
          · exact hm

theorem toList_oinsert {t : OTree K P} (key : K) (p : P) (hb : bstB t = true)
    (habs : osearch t key = false) :
    (oinsert t key p).toList =
      t.toList.filter (fun x => decide (x < key)) ++
        key :: t.toList.filter (fun x => decide (key ≤ x)) := by
  have hs : ¬(osearch t key = true) := by simp [habs]
  simp only [oinsert]
  rw [if_neg hs]
  simp only [toList_omerge]
  rw [(toList_osplit key hb).1, (toList_osplit key hb).2]
  simp [toList]

theorem bstB_oinsert {t : OTree K P} (key : K) (p : P) (hb : bstB t = true) :
    bstB (oinsert t key p) = true := by
  by_cases hs : osearch t key = true
  · simpa [oinsert, hs] using hb
  · have hmem : key ∉ t.toList := fun hm => hs ((osearch_iff_mem hb key).2 hm)
    simp only [oinsert, hs, if_false]
    apply bstB_omerge
    · apply bstB_omerge
      · exact (bstB_osplit key hb).1
      · simp [bstB, toList]
      · intro x hx y hy
        rw [(toList_osplit key hb).1] at hx
        simp only [toList, List.nil_append, List.mem_singleton] at hy
        subst hy
        simpa using List.of_mem_filter hx
    · exact (bstB_osplit key hb).2
    · intro x hx y hy
      rw [toList_omerge] at hx
      rw [(toList_osplit key hb).2] at hy
      have hyk : key ≤ y := by simpa using List.of_mem_filter hy
      have hyt : y ∈ t.toList := List.mem_of_mem_filter hy
      rcases List.mem_append.1 hx with hx | hx
      · rw [(toList_osplit key hb).1] at hx
        have : x < key := by simpa using List.of_mem_filter hx
        exact lt_of_lt_of_le this hyk
      · simp only [toList, List.nil_append, List.mem_singleton] at hx
        subst hx
        exact lt_of_le_of_ne hyk fun he => hmem (he ▸ hyt)

theorem osearch_oinsert {t : OTree K P} (key : K) (p : P) (hb : bstB t = true) :
    osearch (oinsert t key p) key = true := by
  rw [osearch_iff_mem (bstB_oinsert key p hb)]
  by_cases hs : osearch t key = true
  · simp only [oinsert, hs, if_true]
    exact (osearch_iff_mem hb key).1 hs
  · rw [toList_oinsert key p hb (by simpa using hs)]
    simp

theorem find_by_order_out_of_range {t : OTree K P} (hsz : sizeOK t = true) :
    ∀ {i : Int}, (i < 0 ∨ (get_size t : Int) ≤ i) → find_by_order t i = none := by
  induction t with
  | nil => intro i _; simp [find_by_order]
  | node k p s l r ihl ihr =>
    intro i h
    simp only [sizeOK, Bool.and_eq_true, beq_iff_eq] at hsz
    obtain ⟨⟨hseq, hsl⟩, hsr⟩ := hsz
    rcases h with h | h
    · have h1 : ¬((get_size l : Int) = i) := by omega
      have h2 : i < (get_size l : Int) := by omega
      simp only [find_by_order, if_neg h1, if_pos h2]
      exact ihl hsl (Or.inl h)
    · rw [show get_size (node k p s l r) = s from rfl, hseq] at h
      have h1 : ¬((get_size l : Int) = i) := by push_cast at h ⊢; omega
      have h2 : ¬(i < (get_size l : Int)) := by push_cast at h ⊢; omega
      simp only [find_by_order, if_neg h1, if_neg h2]
      exact ihr hsr (Or.inr (by push_cast at h ⊢; omega))

theorem find_by_order_in_range {t : OTree K P} (hsz : sizeOK t = true) :
    ∀ {i : Int}, 0 ≤ i → i < (get_size t : Int) →
      ∃ x, find_by_order t i = some x ∧ x ∈ t.toList := by
  induction t with
  | nil => intro i h0 h1; simp [get_size] at h1; omega
  | node k p s l r ihl ihr =>
    intro i h0 h1
    simp only [sizeOK, Bool.and_eq_true, beq_iff_eq] at hsz
    obtain ⟨⟨hseq, hsl⟩, hsr⟩ := hsz
    rw [show get_size (node k p s l r) = s from rfl, hseq] at h1
    push_cast at h1
    by_cases he : (get_size l : Int) = i
    · exact ⟨k, by simp [find_by_order, he],
        mem_toList_node.2 (Or.inr (Or.inl rfl))⟩
    · by_cases hlt : i < (get_size l : Int)
      · obtain ⟨x, hx, hmem⟩ := ihl hsl h0 hlt
        exact ⟨x, by simp only [find_by_order, if_neg he, if_pos hlt]; exact hx,
          mem_toList_node.2 (Or.inl hmem)⟩
      · have h0' : 0 ≤ i - (get_size l : Int) - 1 := by omega
        have h1' : i - (get_size l : Int) - 1 < (get_size r : Int) := by omega
        obtain ⟨x, hx, hmem⟩ := ihr hsr h0' h1'
        exact ⟨x, by simp only [find_by_order, if_neg he, if_neg hlt]; exact hx,
          mem_toList_node.2 (Or.inr (Or.inr hmem))⟩

theorem order_of_key_find_by_order {t : OTree K P} (hb : bstB t = true) :
    ∀ {i : Int} {x : K}, find_by_order t i = some x →
      x ∈ t.toList ∧ (order_of_key t x : Int) = i := by
  induction t with
  | nil => intro i x h; simp [find_by_order] at h
  | node k p s l r ihl ihr =>
    intro i x h
    obtain ⟨hl, hr, hbl, hbr⟩ := bstB_node_iff.1 hb
    by_cases he : (get_size l : Int) = i
    · simp only [find_by_order, if_pos he, Option.some_inj] at h
      subst h
      refine ⟨mem_toList_node.2 (Or.inr (Or.inl rfl)), ?_⟩
      simp only [order_of_key, if_pos rfl]
      exact he
    · by_cases hlt : i < (get_size l : Int)
      · simp only [find_by_order, if_neg he, if_pos hlt] at h
        obtain ⟨hmem, hrank⟩ := ihl hbl h
        have hxk : x < k := hl x hmem
        refine ⟨mem_toList_node.2 (Or.inl hmem), ?_⟩
        rw [show order_of_key (node k p s l r) x = order_of_key l x by
          simp [order_of_key, ne_of_lt hxk, hxk]]
        exact hrank
      · simp only [find_by_order, if_neg he, if_neg hlt] at h
        obtain ⟨hmem, hrank⟩ := ihr hbr h
        have hkx : k < x := hr x hmem
        refine ⟨mem_toList_node.2 (Or.inr (Or.inr hmem)), ?_⟩
        rw [show order_of_key (node k p s l r) x
              = get_size l + 1 + order_of_key r x by
            simp [order_of_key, (ne_of_lt hkx).symm, not_lt.2 (le_of_lt hkx)]]
        push_cast
        omega

end OTree

/-!  Lemmas about the plain `Treap` primitives and the size-erasure map. -/

namespace TTree

variable {K P : Type} [LinearOrder K] [LinearOrder P]

theorem tmerge_nil (t : TTree K P) : tmerge t nil = t := by
  cases t <;> simp [tmerge]

theorem tmerge_assoc (a b c : TTree K P) :
    tmerge (tmerge a b) c = tmerge a (tmerge b c) := by
  suffices h : ∀ n, ∀ a b c : TTree K P, tcount a + tcount b + tcount c = n →
      tmerge (tmerge a b) c = tmerge a (tmerge b c) from h _ a b c rfl
  intro n
  induction n using Nat.strong_induction_on with
  | _ n ih =>
    intro a b c hn
    match a, b, c with
    | nil, b, c => simp [tmerge]
    | a, nil, c => simp [tmerge_nil, tmerge]
    | a, b, nil => simp [tmerge_nil]
    | node k1 p1 l1 r1, node k2 p2 l2 r2, node k3 p3 l3 r3 =>
      by_cases h12 : p2 < p1 <;> by_cases h23 : p3 < p2 <;> by_cases h13 : p3 < p1
      · -- root is the first tree's: recurse on its right spine
        have e := ih (tcount r1 + tcount (node k2 p2 l2 r2)
              + tcount (node k3 p3 l3 r3))
            (by rw [← hn]; simp only [tcount]; omega) r1 _ _ rfl
        simp only [tmerge, gt_iff_lt, h12, h23, h13, if_true] at e ⊢
        rw [e]
      · exact absurd (lt_trans h23 h12) h13
      · have e := ih (tcount r1 + tcount (node k2 p2 l2 r2)
              + tcount (node k3 p3 l3 r3))
            (by rw [← hn]; simp only [tcount]; omega) r1 _ _ rfl
        simp only [tmerge, gt_iff_lt, h12, h23, h13, if_true, if_false] at e ⊢
        rw [e]
      · -- root is the third tree's: recurse on its left spine
        have e := ih (tcount (node k1 p1 l1 r1) + tcount (node k2 p2 l2 r2)
              + tcount l3)
            (by rw [← hn]; simp only [tcount]; omega) _ _ l3 rfl
        simp only [tmerge, gt_iff_lt, h12, h23, h13, if_true, if_false] at e ⊢
        rw [e]
      · -- root is the middle tree's: both sides coincide without recursion
        simp only [tmerge, gt_iff_lt, h12, h23, h13, if_true, if_false]
      · simp only [tmerge, gt_iff_lt, h12, h23, h13, if_true, if_false]
      · exact absurd h13 (not_lt.2 (le_trans (not_lt.1 h12) (not_lt.1 h23)))
      · have e := ih (tcount (node k1 p1 l1 r1) + tcount (node k2 p2 l2 r2)
              + tcount l3)
            (by rw [← hn]; simp only [tcount]; omega) _ _ l3 rfl
        simp only [tmerge, gt_iff_lt, h12, h23, h13, if_false] at e ⊢
        rw [e]

end TTree

theorem eraseSize_osplit {K P : Type} [LinearOrder K] [LinearOrder P]
    (t : OTree K P) (key : K) :
    TTree.tsplit (eraseSize t) key =
      (eraseSize (OTree.osplit t key).1, eraseSize (OTree.osplit t key).2) := by
  induction t with
  | nil => simp [eraseSize, OTree.osplit, TTree.tsplit]
  | node k p s l r ihl ihr =>
    by_cases hk : k < key
    · simp [eraseSize, OTree.osplit, TTree.tsplit, hk, ihr]
    · simp [eraseSize, OTree.osplit, TTree.tsplit, hk, ihl]

theorem eraseSize_omerge {K P : Type} [LinearOrder K] [LinearOrder P]
    (a b : OTree K P) :
    eraseSize (OTree.omerge a b) = TTree.tmerge (eraseSize a) (eraseSize b) := by
  induction a, b using OTree.omerge.induct with
  | case1 t2 => simp [OTree.omerge, eraseSize, TTree.tmerge]
  | case2 k1 p1 s1 l1 r1 =>
    simp [OTree.omerge, eraseSize, TTree.tmerge_nil]
  | case3 k1 p1 s1 l1 r1 k2 p2 s2 l2 r2 h ih =>
    simp [OTree.omerge, h, eraseSize, TTree.tmerge, ih]
  | case4 k1 p1 s1 l1 r1 k2 p2 s2 l2 r2 h ih =>
    simp [OTree.omerge, h, eraseSize, TTree.tmerge, ih]

theorem eraseSize_osearch {K P : Type} [LinearOrder K] [LinearOrder P]
    (t : OTree K P) (key : K) :
    TTree.tsearch (eraseSize t) key = OTree.osearch t key := by
  induction t with
  | nil => simp [eraseSize, TTree.tsearch, OTree.osearch]
  | node k p s l r ihl ihr =>
    simp [eraseSize, TTree.tsearch, OTree.osearch, ihl, ihr]

theorem eraseSize_oinsert {K P : Type} [LinearOrder K] [LinearOrder P]
    (t : OTree K P) (key : K) (p : P) :
    eraseSize (OTree.oinsert t key p) = TTree.tinsert (eraseSize t) key p := by
  by_cases hs : OTree.osearch t key = true
  · simp [OTree.oinsert, TTree.tinsert, hs, eraseSize_osearch]
  · simp only [OTree.oinsert, TTree.tinsert, eraseSize_osearch,
      Bool.not_eq_true] at hs
    simp only [OTree.oinsert, TTree.tinsert, eraseSize_osearch, hs,
      Bool.false_eq_true, if_false]
    rw [eraseSize_omerge, eraseSize_omerge, eraseSize_osplit]
    exact TTree.tmerge_assoc _ _ _

theorem eraseSize_odelete {K P : Type} [LinearOrder K] [LinearOrder P]
    [Add K] [One K] (t : OTree K P) (key : K) :
    eraseSize (OTree.odelete t key) = TTree.tdelete (eraseSize t) key := by
  by_cases hs : OTree.osearch t key = true
  · simp only [OTree.odelete, TTree.tdelete, eraseSize_osearch, hs,
      Bool.not_true, Bool.false_eq_true, if_false]
    rw [eraseSize_omerge, eraseSize_osplit, eraseSize_osplit]
  · simp [OTree.odelete, TTree.tdelete, eraseSize_osearch, hs]

theorem foldl_tApply_eraseSize {K P : Type} [LinearOrder K] [LinearOrder P]
    [Add K] [One K] (ops : List (MOp K P)) (t : OTree K P) :
    List.foldl tApply (eraseSize t) ops = eraseSize (List.foldl oApply t ops) := by
  induction ops generalizing t with
  | nil => rfl
  | cons op ops ih =>
    cases op with
    | ins k p =>
      simp only [List.foldl_cons, tApply, oApply, ← eraseSize_oinsert]
      exact ih _
    | del k =>
      simp only [List.foldl_cons, tApply, oApply, ← eraseSize_odelete]
      exact ih _

namespace OTree

variable {K P : Type} [LinearOrder K] [LinearOrder P]

theorem oinsert_of_found {t : OTree K P} {key : K} (p : P)
    (h : osearch t key = true) : oinsert t key p = t := by
  simp [oinsert, h]

theorem odelete_of_absent [Add K] [One K] {t : OTree K P} {key : K}
    (h : osearch t key = false) : odelete t key = t := by
  simp [odelete, h]

theorem sizeOK_oinsert {t : OTree K P} (key : K) (p : P)
    (h : sizeOK t = true) : sizeOK (oinsert t key p) = true := by
  by_cases hs : osearch t key = true
  · simpa [oinsert, hs] using h
  · simp only [oinsert]
    rw [if_neg hs]
    exact sizeOK_omerge _ _
      (sizeOK_omerge _ _ (sizeOK_osplit key h).1 (by simp [sizeOK, get_size]))
      (sizeOK_osplit key h).2

theorem sizeOK_odelete [Add K] [One K] {t : OTree K P} (key : K)
    (h : sizeOK t = true) : sizeOK (odelete t key) = true := by
  by_cases hs : osearch t key = true
  · simp only [odelete, hs, Bool.not_true, Bool.false_eq_true, if_false]
    exact sizeOK_omerge _ _ (sizeOK_osplit key h).1
      (sizeOK_osplit (key + 1) (sizeOK_osplit key h).2).2
  · rwa [odelete_of_absent (by simpa using hs)]

end OTree

theorem sizeOK_setApply {K P : Type} [LinearOrder K] [LinearOrder P]
    [Add K] [One K] {t : OTree K P} (op : SetOp K P)
    (h : OTree.sizeOK t = true) : OTree.sizeOK (setApply t op) = true := by
  cases op with
  | ins k p => exact OTree.sizeOK_oinsert k p h
  | del k => exact OTree.sizeOK_odelete k h
  | mem k => exact h
  | kth i => exact h
  | rank k => exact h

theorem sizeOK_runSet {K P : Type} [LinearOrder K] [LinearOrder P]
    [Add K] [One K] (ops : List (SetOp K P)) :
    OTree.sizeOK (runSet ops) = true := by
  suffices h : ∀ t : OTree K P, OTree.sizeOK t = true →
      OTree.sizeOK (List.foldl setApply t ops) = true from h _ rfl
  induction ops with
  | nil => exact fun t ht => ht
  | cons op ops ih =>
    intro t ht
    rw [List.foldl_cons]
    exact ih _ (sizeOK_setApply op ht)

theorem eraseSize_toList {K P : Type} (t : OTree K P) :
    (eraseSize t).toList = t.toList := by
  induction t with
  | nil => rfl
  | node k p s l r ihl ihr => simp [eraseSize, OTree.toList, TTree.toList, ihl, ihr]

/-!  The claims. -/

/-- C1: the spec states that `delete(tree, key)` removes exactly the one node
holding `key` (every other key stays present) for any totally ordered key
type, not only integer keys, and itself flags the code's `key + 1` successor
trick as a latent bug.  The code indeed violates the property on non-integer
keys: on the well-formed two-key tree `ratTree` over rational keys
(`5` and `11/2`, all three invariants hold and both keys are present),
`delete(5)` returns the empty tree — the other key `11/2` is removed as well,
because the code splits at `5 + 1 = 6`, which lies above `11/2`.  This theorem
evaluates the code at that failing input. -/
theorem claim_C1_delete_successor_trick_drops_keys :
    OTree.bstB ratTree = true ∧ OTree.heapB ratTree = true ∧
      OTree.sizeOK ratTree = true ∧ OTree.osearch ratTree 5 = true ∧
      OTree.osearch ratTree (11/2) = true ∧
      OTree.odelete ratTree 5 = OTree.nil := by
  refine ⟨?_, ?_, ?_, ?_, ?_, ?_⟩ <;>
    norm_num [ratTree, OTree.bstB, OTree.heapB, OTree.sizeOK, OTree.rootPrioLe,
      OTree.get_size, OTree.toList, OTree.osearch, OTree.odelete, OTree.osplit,
      OTree.omerge, OTree.prios]

/-- C2: under the size invariant, `find_by_order` rejects exactly the
out-of-range indices: it returns the designated out-of-range result `None`
(embedded as `none`) if and only if `k < 0` or `k ≥ size(tree)` — in
particular for every `k` on an empty tree — and hence for an out-of-range `k`
it never silently returns a key.  (The Python method signals the condition by
returning `None`, a value distinct from every key, rather than by raising.) -/
theorem claim_C2_find_by_order_rejects_out_of_range
    {K P : Type} [LinearOrder K] [LinearOrder P] (t : OTree K P)
    (hsz : OTree.sizeOK t = true) (i : Int) :
    OTree.find_by_order t i = none ↔
      i < 0 ∨ (OTree.get_size t : Int) ≤ i := by
  constructor
  · intro h
    by_contra hc
    push_neg at hc
    obtain ⟨x, hx, _⟩ := OTree.find_by_order_in_range hsz hc.1 hc.2
    rw [h] at hx
    exact Option.noConfusion hx
  · exact OTree.find_by_order_out_of_range hsz

theorem claim_C2_witness :
    OTree.sizeOK sampleT = true ∧
      (OTree.find_by_order sampleT 9 = none ↔
        (9 : Int) < 0 ∨ (OTree.get_size sampleT : Int) ≤ 9) :=
  ⟨by decide, claim_C2_find_by_order_rejects_out_of_range sampleT (by decide) 9⟩

/-- C3: on a tree satisfying the BST, heap and size invariants, `split(t, x)`
returns a pair whose left part holds exactly the keys of `t` strictly below
`x` (in order) and whose right part holds exactly the keys `≥ x`, and both
parts satisfy all three invariants independently. -/
theorem claim_C3_split_correct
    {K P : Type} [LinearOrder K] [LinearOrder P] (t : OTree K P) (x : K)
    (hb : OTree.bstB t = true) (hh : OTree.heapB t = true)
    (hs : OTree.sizeOK t = true) :
    (OTree.osplit t x).1.toList = t.toList.filter (fun k => decide (k < x)) ∧
      (OTree.osplit t x).2.toList = t.toList.filter (fun k => decide (x ≤ k)) ∧
      OTree.bstB (OTree.osplit t x).1 = true ∧
      OTree.bstB (OTree.osplit t x).2 = true ∧
      OTree.heapB (OTree.osplit t x).1 = true ∧
      OTree.heapB (OTree.osplit t x).2 = true ∧
      OTree.sizeOK (OTree.osplit t x).1 = true ∧
      OTree.sizeOK (OTree.osplit t x).2 = true :=
  ⟨(OTree.toList_osplit x hb).1, (OTree.toList_osplit x hb).2,
    (OTree.bstB_osplit x hb).1, (OTree.bstB_osplit x hb).2,
    (OTree.heapB_osplit x hh).1, (OTree.heapB_osplit x hh).2,
    (OTree.sizeOK_osplit x hs).1, (OTree.sizeOK_osplit x hs).2⟩

theorem claim_C3_witness :
    (OTree.bstB sampleT = true ∧ OTree.heapB sampleT = true ∧
        OTree.sizeOK sampleT = true) ∧
      ((OTree.osplit sampleT 5).1.toList
          = sampleT.toList.filter (fun k => decide (k < 5)) ∧
        (OTree.osplit sampleT 5).2.toList
          = sampleT.toList.filter (fun k => decide (5 ≤ k)) ∧
        OTree.bstB (OTree.osplit sampleT 5).1 = true ∧
        OTree.bstB (OTree.osplit sampleT 5).2 = true ∧
        OTree.heapB (OTree.osplit sampleT 5).1 = true ∧
        OTree.heapB (OTree.osplit sampleT 5).2 = true ∧
        OTree.sizeOK (OTree.osplit sampleT 5).1 = true ∧
        OTree.sizeOK (OTree.osplit sampleT 5).2 = true) :=
  ⟨⟨by decide, by decide, by decide⟩,
    claim_C3_split_correct sampleT 5 (by decide) (by decide) (by decide)⟩

/-- C4: if `a` and `b` each satisfy the BST, heap and size invariants and
every key of `a` is strictly below every key of `b`, then `merge(a, b)`
holds exactly the union of the keys (its traversal is the concatenation of
the two traversals), satisfies all three invariants, and — when both trees
are non-empty — its root is the input root with the higher priority
(the code prefers `b`'s root on equal priorities, so the root priority is
`max p1 p2`). -/
theorem claim_C4_merge_correct
    {K P : Type} [LinearOrder K] [LinearOrder P] (a b : OTree K P)
    (hba : OTree.bstB a = true) (hha : OTree.heapB a = true)
    (hsa : OTree.sizeOK a = true) (hbb : OTree.bstB b = true)
    (hhb : OTree.heapB b = true) (hsb : OTree.sizeOK b = true)
    (hsep : ∀ x ∈ a.toList, ∀ y ∈ b.toList, x < y) :
    (OTree.omerge a b).toList = a.toList ++ b.toList ∧
      OTree.bstB (OTree.omerge a b) = true ∧
      OTree.heapB (OTree.omerge a b) = true ∧
      OTree.sizeOK (OTree.omerge a b) = true ∧
      ∀ k1 p1 s1 l1 r1 k2 p2 s2 l2 r2,
        a = OTree.node k1 p1 s1 l1 r1 → b = OTree.node k2 p2 s2 l2 r2 →
          ∃ s l r, OTree.omerge a b
            = OTree.node (if p2 < p1 then k1 else k2) (max p1 p2) s l r := by
  refine ⟨OTree.toList_omerge a b, OTree.bstB_omerge a b hba hbb hsep,
    OTree.heapB_omerge a b hha hhb, OTree.sizeOK_omerge a b hsa hsb, ?_⟩
  rintro k1 p1 s1 l1 r1 k2 p2 s2 l2 r2 rfl rfl
  by_cases h : p2 < p1
  · refine ⟨1 + OTree.get_size l1
        + OTree.get_size (OTree.omerge r1 (OTree.node k2 p2 s2 l2 r2)), l1,
      OTree.omerge r1 (OTree.node k2 p2 s2 l2 r2), ?_⟩
    rw [max_eq_left (le_of_lt h), if_pos h]
    simp only [OTree.omerge, gt_iff_lt, h, if_true]
  · refine ⟨1
        + OTree.get_size (OTree.omerge (OTree.node k1 p1 s1 l1 r1) l2)
        + OTree.get_size r2,
      OTree.omerge (OTree.node k1 p1 s1 l1 r1) l2, r2, ?_⟩
    rw [max_eq_right (not_lt.1 h), if_neg h]
    simp only [OTree.omerge, gt_iff_lt, h, if_false]

theorem claim_C4_witness :
    (OTree.bstB (OTree.node 3 50 3 (OTree.node 1 10 1 .nil .nil)
          (OTree.node 4 30 1 .nil .nil) : OTree ℤ ℤ) = true ∧
        OTree.heapB (OTree.node 3 50 3 (OTree.node 1 10 1 .nil .nil)
          (OTree.node 4 30 1 .nil .nil) : OTree ℤ ℤ) = true ∧
        OTree.sizeOK (OTree.node 3 50 3 (OTree.node 1 10 1 .nil .nil)
          (OTree.node 4 30 1 .nil .nil) : OTree ℤ ℤ) = true ∧
        OTree.bstB (OTree.node 8 60 3 (OTree.node 7 40 1 .nil .nil)
          (OTree.node 9 20 1 .nil .nil) : OTree ℤ ℤ) = true ∧
        OTree.heapB (OTree.node 8 60 3 (OTree.node 7 40 1 .nil .nil)
          (OTree.node 9 20 1 .nil .nil) : OTree ℤ ℤ) = true ∧
        OTree.sizeOK (OTree.node 8 60 3 (OTree.node 7 40 1 .nil .nil)
          (OTree.node 9 20 1 .nil .nil) : OTree ℤ ℤ) = true ∧
        (∀ x ∈ (OTree.node 3 50 3 (OTree.node 1 10 1 .nil .nil)
            (OTree.node 4 30 1 .nil .nil) : OTree ℤ ℤ).toList,
          ∀ y ∈ (OTree.node 8 60 3 (OTree.node 7 40 1 .nil .nil)
            (OTree.node 9 20 1 .nil .nil) : OTree ℤ ℤ).toList, x < y)) ∧
      (OTree.omerge (OTree.node 3 50 3 (OTree.node 1 10 1 .nil .nil)
              (OTree.node 4 30 1 .nil .nil))
            (OTree.node 8 60 3 (OTree.node 7 40 1 .nil .nil)
              (OTree.node 9 20 1 .nil .nil))).toList
          = (OTree.node 3 50 3 (OTree.node 1 10 1 .nil .nil)
              (OTree.node 4 30 1 .nil .nil) : OTree ℤ ℤ).toList
            ++ (OTree.node 8 60 3 (OTree.node 7 40 1 .nil .nil)
              (OTree.node 9 20 1 .nil .nil) : OTree ℤ ℤ).toList :=
  ⟨⟨by decide, by decide, by decide, by decide, by decide, by decide,
      by decide⟩,
    (claim_C4_merge_correct _ _ (by decide) (by decide) (by decide) (by decide)
      (by decide) (by decide) (by decide)).1⟩

/-- C5: after every sequence of public `OrderedSet` calls (`insert`, `delete`,
`search`, `find_by_order`, `order_of_key`) starting from the empty set, every
node's stored `size` equals `1 + size(left) + size(right)` (the recursive
predicate `sizeOK`), and the tree's total size (`len`, i.e. the root's stored
size) equals the number of keys reachable by in-order traversal. -/
theorem claim_C5_size_invariant_maintained
    {K P : Type} [LinearOrder K] [LinearOrder P] [Add K] [One K]
    (ops : List (SetOp K P)) :
    OTree.sizeOK (runSet ops) = true ∧
      OTree.get_size (runSet ops) = (runSet ops).toList.length :=
  ⟨sizeOK_runSet ops, OTree.get_size_eq_length (sizeOK_runSet ops)⟩

/-- C6: on a tree satisfying the BST and size invariants, for every in-range
index `k` (`0 ≤ k < size`), `find_by_order` returns some key `x`, and
`order_of_key x` — the rank — equals `k`. -/
theorem claim_C6_rank_of_kth
    {K P : Type} [LinearOrder K] [LinearOrder P] (t : OTree K P)
    (hb : OTree.bstB t = true) (hs : OTree.sizeOK t = true) (i : Int)
    (h0 : 0 ≤ i) (h1 : i < (OTree.get_size t : Int)) :
    ∃ x, OTree.find_by_order t i = some x ∧
      (OTree.order_of_key t x : Int) = i := by
  obtain ⟨x, hx, _⟩ := OTree.find_by_order_in_range hs h0 h1
  exact ⟨x, hx, (OTree.order_of_key_find_by_order hb hx).2⟩

theorem claim_C6_witness :
    (OTree.bstB sampleT = true ∧ OTree.sizeOK sampleT = true ∧
        (0 : Int) ≤ 3 ∧ (3 : Int) < (OTree.get_size sampleT : Int)) ∧
      ∃ x, OTree.find_by_order sampleT 3 = some x ∧
        (OTree.order_of_key sampleT x : Int) = 3 :=
  ⟨⟨by decide, by decide, by decide, by decide⟩,
    claim_C6_rank_of_kth sampleT (by decide) (by decide) 3 (by decide)
      (by decide)⟩

/-- C7: on a tree satisfying the three invariants, merging the two halves of
`split(t, x)` back together yields a tree whose key multiset is exactly the
key multiset of `t` (the shape may differ). -/
theorem claim_C7_split_merge_roundtrip
    {K P : Type} [LinearOrder K] [LinearOrder P] (t : OTree K P) (x : K)
    (hb : OTree.bstB t = true) (_hh : OTree.heapB t = true)
    (_hs : OTree.sizeOK t = true) :
    ((OTree.omerge (OTree.osplit t x).1 (OTree.osplit t x).2).toList
        : Multiset K)
      = (t.toList : Multiset K) := by
  rw [OTree.toList_omerge, (OTree.toList_osplit x hb).1,
    (OTree.toList_osplit x hb).2, Multiset.coe_eq_coe]
  have he : t.toList.filter (fun k => decide (x ≤ k))
      = t.toList.filter (fun k => !decide (k < x)) :=
    List.filter_congr fun a _ => by
      rw [← decide_not]
      exact decide_eq_decide.2 not_lt.symm
  rw [he]
  exact List.filter_append_perm _ _

theorem claim_C7_witness :
    (OTree.bstB sampleT = true ∧ OTree.heapB sampleT = true ∧
        OTree.sizeOK sampleT = true) ∧
      ((OTree.omerge (OTree.osplit sampleT 4).1 (OTree.osplit sampleT 4).2).toList
          : Multiset ℤ)
        = (sampleT.toList : Multiset ℤ) :=
  ⟨⟨by decide, by decide, by decide⟩,
    claim_C7_split_merge_roundtrip sampleT 4 (by decide) (by decide)
      (by decide)⟩

/-- C8: `insert` of a present key and `delete` of an absent key are no-ops
returning the very same tree (not errors), and consequently inserting the
same key twice is the same as inserting it once (even with a different
priority draw for the second call), so key set and size agree. -/
theorem claim_C8_insert_delete_noops
    {K P : Type} [LinearOrder K] [LinearOrder P] [Add K] [One K]
    (t : OTree K P) (x : K) (p p' : P) (hb : OTree.bstB t = true) :
    (OTree.osearch t x = true → OTree.oinsert t x p = t) ∧
      (OTree.osearch t x = false → OTree.odelete t x = t) ∧
      OTree.oinsert (OTree.oinsert t x p) x p' = OTree.oinsert t x p := by
  refine ⟨fun h => OTree.oinsert_of_found p h,
    fun h => OTree.odelete_of_absent h, ?_⟩
  exact OTree.oinsert_of_found p' (OTree.osearch_oinsert x p hb)

theorem claim_C8_witness :
    OTree.bstB sampleT = true ∧
      ((OTree.osearch sampleT 5 = true → OTree.oinsert sampleT 5 99 = sampleT) ∧
        (OTree.osearch sampleT 5 = false → OTree.odelete sampleT 5 = sampleT) ∧
        OTree.oinsert (OTree.oinsert sampleT 5 99) 5 98
          = OTree.oinsert sampleT 5 99) :=
  ⟨by decide, claim_C8_insert_delete_noops sampleT 5 99 98 (by decide)⟩

/-- C9: the plain `Treap` and the `OrderedSet` implement the same structure:
running any sequence of `insert`/`delete` calls with identical keys and
identical per-node priority draws on both, the plain treap is exactly the
ordered-set tree with its `size` fields erased (same shape, keys and
priorities), the two trees hold the same key sequence, and `search` agrees
on every key. -/
theorem claim_C9_treap_orderedset_equivalence
    {K P : Type} [LinearOrder K] [LinearOrder P] [Add K] [One K]
    (ops : List (MOp K P)) :
    runT ops = eraseSize (runO ops) ∧
      (runT ops).toList = (runO ops).toList ∧
      ∀ x, TTree.tsearch (runT ops) x = OTree.osearch (runO ops) x := by
  have h : runT ops = eraseSize (runO ops) := by
    unfold runT runO
    exact foldl_tApply_eraseSize ops OTree.nil
  refine ⟨h, ?_, fun x => by rw [h, eraseSize_osearch]⟩
  rw [h, eraseSize_toList]

/-- C10: for every index outside `[0, size)` — negative, `≥ size`, or any
index on an empty set — `find_by_order` returns `None` (embedded `none`),
the designated absent value, and in particular never returns a key of the
set; being a pure query it leaves the tree unmodified (in this embedding it
is a function of the tree that builds no tree at all). -/
theorem claim_C10_find_by_order_returns_none
    {K P : Type} [LinearOrder K] [LinearOrder P] (t : OTree K P)
    (hsz : OTree.sizeOK t = true) (i : Int)
    (h : i < 0 ∨ (OTree.get_size t : Int) ≤ i) :
    OTree.find_by_order t i = none ∧
      ∀ x ∈ t.toList, OTree.find_by_order t i ≠ some x := by
  have hn := OTree.find_by_order_out_of_range hsz h
  exact ⟨hn, fun x _ => by simp [hn]⟩

theorem claim_C10_witness :
    (OTree.sizeOK sampleT = true ∧
        ((-1 : Int) < 0 ∨ (OTree.get_size sampleT : Int) ≤ -1)) ∧
      (OTree.find_by_order sampleT (-1) = none ∧
        ∀ x ∈ sampleT.toList, OTree.find_by_order sampleT (-1) ≠ some x) :=
  ⟨⟨by decide, by decide⟩,
    claim_C10_find_by_order_returns_none sampleT (by decide) (-1)
      (by decide)⟩

end PyCPBook
